import Mathlib

/-!
Shallow embedding of `pyfr/backends/cuda/types.py`: the CUDA device-buffer
layout (`CUDAMatrixBase`), the indexed gather/scatter view (`CUDAView`) and
the asynchronous execution queue (`CUDAQueue`).

Conventions used throughout:
* machine integers are modelled as `Nat`/`Int`; the `np.int32` stores of
  `CUDAView` use an explicit two's-complement wrap `wrap32`;
* device memory is element-addressed (`Nat → α`); every byte quantity in
  the source (pitches, widths) is a multiple of `itemsize`, so the
  element-level model is exact;
* fallible Python code (`raise`) is embedded with `Except String`;
* asynchronous side effects (kernel launches, stream synchronisation,
  `MPI.Prequest.Waitall`) are recorded in an event trace.
-/

namespace PyFRCuda

/-! ### Matrix layout (`CUDAMatrixBase.__init__`) -/

/-- `ldmod = backend.alignb // self.itemsize if 'align' in tags else 1`. -/
def ldmodOf (alignb itemsize : Nat) (tags : List String) : Nat :=
  if "align" ∈ tags then alignb / itemsize else 1

/-- `self.leaddim = ncol - (ncol % -ldmod)`; Python's `%` is floor-mod,
which is exactly `Int.fmod`. -/
def leaddim (ncol ldmod : Int) : Int :=
  ncol - Int.fmod ncol (-ldmod)

/-! ### Device memory and host transfer (`CUDAMatrixBase.get`/`set`)

The strided copy primitive `memcpy2d_htod`/`memcpy2d_dtoh` lives in
`pyfr/backends/cuda/util.py`, outside the sources at hand. -/

/-- Modelled from the spec: the consumed strided transfer primitive
`copy_2d(dst, src, row_bytes, dst_pitch, src_pitch, rows)` copies, for each
of `rows` rows, `width` consecutive elements from the source (row stride
`srcPitch`) to the destination (row stride `dstPitch`); all other
destination elements are untouched.  Argument order follows the source
call sites `memcpy2d_*(dst, src, spitch, dpitch, width, height)`, with
byte quantities divided by `itemsize`. -/
def copy2d (α : Type) (srcPitch dstPitch width rows : Nat)
    (src dst : Nat → α) : Nat → α :=
  fun a =>
    if a / dstPitch < rows ∧ a % dstPitch < width then
      src (a / dstPitch * srcPitch + a % dstPitch)
    else dst a

/-- A placed device buffer: canonical `nrow × ncol` shape, padded leading
dimension, and its element-addressed device memory (relative to
`self.data`).  `ioshape` is taken in canonical 2-D form: `compact_shape` /
`compact_arr` / `reshape` (from the backend base class, outside the
sources at hand) form, per the spec, a bijection between the logical shape
and the canonical `nrow × ncol` shape, so we work on its canonical side. -/
structure DevMat (α : Type) where
  nrow : Nat
  ncol : Nat
  lddim : Nat
  mem : Nat → α

/-- A host-side 2-D array in row-major order with row pitch `ncol`
(the compacted `np.asanyarray(..., order='C')` layout), as a function on
flat element indices. -/
def rowMajor (α : Type) [Inhabited α] (ncol : Nat) (A : List (List α)) :
    Nat → α :=
  fun k => (A.getD (k / ncol) []).getD (k % ncol) default

/-- `ary.shape == self.ioshape` for the canonical 2-D shape. -/
def shapeEq (α : Type) (A : List (List α)) (nrow ncol : Nat) : Prop :=
  A.length = nrow ∧ ∀ row ∈ A, row.length = ncol

instance (α : Type) (A : List (List α)) (nrow ncol : Nat) :
    Decidable (shapeEq α A nrow ncol) := by
  unfold shapeEq; infer_instance

/-- `CUDAMatrixBase.get`: allocate an uninitialised host buffer (`junk`),
`memcpy2d_dtoh(buf, self.data, self.pitch, self.ncol*self.itemsize,
self.ncol*self.itemsize, self.nrow)`, then reshape to the I/O shape. -/
def DevMat.get (α : Type) (m : DevMat α) (junk : Nat → α) :
    List (List α) :=
  let buf := copy2d α m.lddim m.ncol m.ncol m.nrow m.mem junk
  (List.range m.nrow).map fun r => (List.range m.ncol).map fun c =>
    buf (r * m.ncol + c)

/-- `CUDAMatrixBase.set`: raise `ValueError('Invalid matrix shape')` on a
shape mismatch, otherwise compact the array and
`memcpy2d_htod(self.data, nary, self.ncol*self.itemsize, self.pitch,
self.ncol*self.itemsize, self.nrow)`. -/
def DevMat.set (α : Type) [Inhabited α] (m : DevMat α)
    (A : List (List α)) : Except String (DevMat α) :=
  if shapeEq α A m.nrow m.ncol then
    .ok { m with
          mem := copy2d α m.ncol m.lddim m.ncol m.nrow
                   (rowMajor α m.ncol A) m.mem }
  else
    .error "Invalid matrix shape"

/-- The data region of the padded buffer: element `a` lies in row
`a / lddim` at column `a % lddim`, and is real data (not padding) when the
row is `< nrow` and the column `< ncol`. -/
def inRegion (nrow ncol lddim a : Nat) : Prop :=
  a / lddim < nrow ∧ a % lddim < ncol

/-! ### Indexed view (`CUDAView.__init__`) -/

/-- Two's-complement wrap into `np.int32`. -/
def wrap32 (x : Int) : Int :=
  (x + 2 ^ 31) % 2 ^ 32 - 2 ^ 31

/-- A matrix as referenced by a view: its placement offset (in elements)
and leading dimension.  `vid` stands for the Python object identity, which
is what `np.where(matmap == m)` compares. -/
structure ViewMat where
  vid : Nat
  offset : Int
  ldim : Int
deriving DecidableEq

instance : Inhabited ViewMat := ⟨⟨0, 0, 0⟩⟩

/-- One pass of the loop body
`offmap[ix] += m.offset + r[ix]*m.leaddim` (`ix = where(matmap == m)`),
with int32 wraparound on the store. -/
def addWhere (matmap : List ViewMat) (r : List Int) (m : ViewMat)
    (off : List Int) : List Int :=
  List.zipWith
    (fun p o =>
      if p.1.vid = m.vid then wrap32 (o + (m.offset + p.2 * m.ldim)) else o)
    (matmap.zip r) off

/-- `offmap = np.array(c, dtype=np.int32)` followed by the loop over
`self._mats` (the deduplicated list of matrices referenced by the view,
built by the base class). -/
def offmapCompiled (mats matmap : List ViewMat) (r c : List Int) :
    List Int :=
  mats.foldl (fun off m => addWhere matmap r m off) (c.map wrap32)

/-- An `np.int32` auxiliary buffer of the view, with its construction
shape. -/
structure IntBuf where
  nrow : Nat
  ncol : Nat
  vals : List Int
deriving DecidableEq

/-- The two auxiliary buffers a `CUDAView` compiles to.  `self.mapping`
holds the offsets, `self.strides` the supplied stride map; both are
`CUDAMatrixBase(backend, np.int32, (self.nrow, self.ncol), ...)`, whose
initial value is cast to `np.int32` on `set`.  The view's `nrow`/`ncol`
come from the base class, modelled from the spec as the view's logical
shape. -/
structure CUDAViewBufs where
  mapping : IntBuf
  strides : IntBuf
deriving DecidableEq

/-- `CUDAView.__init__`: compile matrices plus row/column indices into
offsets relative to the base allocation, and store the stride map. -/
def cudaView (mats matmap : List ViewMat) (r c stridemap : List Int)
    (nrow ncol : Nat) : CUDAViewBufs :=
  { mapping := ⟨nrow, ncol, offmapCompiled mats matmap r c⟩
    strides := ⟨nrow, ncol, stridemap.map wrap32⟩ }

/-! ### Execution queue (`CUDAQueue`) -/

/-- The two recognised kernel kinds, plus the unrecognised case that
`_exec_item` rejects. -/
inductive K4Kind where
  | compute
  | mpi
  | other
deriving DecidableEq

/-- A work item: `kid` identifies it, `kind` is what
`base.iscomputekernel` / `base.ismpikernel` test, and `reqs` are the MPI
request handles an MPI kernel's `run` appends to the queue's list. -/
structure Item where
  kid : Nat
  kind : K4Kind
  reqs : List Nat
deriving DecidableEq

/-- Observable side effects of driving a queue: a kernel's `run` call, a
stream synchronisation, and an `MPI.Prequest.Waitall` over the handles
outstanding at that point. -/
inductive Event where
  | run (i : Item)
  | syncComp
  | syncCopy
  | waitall (reqs : List Nat)
deriving DecidableEq

/-- Queue state apart from the pending deque: `self._last`,
`self._mpireqs`, and the trace of observable effects so far. -/
structure QState where
  last : Option Item
  mpireqs : List Nat
  trace : List Event
deriving DecidableEq

/-- A `CUDAQueue`: its state and its pending items (`self._items`; the
opaque runtime arguments paired with each item are dropped). -/
structure Queue where
  st : QState
  items : List Item
deriving DecidableEq

/-- `base.iscomputekernel`, as applied to `self._last` (possibly `None`)
or to a dequeued item. -/
def iscomputekernel : Option Item → Bool
  | some i => i.kind = K4Kind.compute
  | none => false

/-- `base.ismpikernel`. -/
def ismpikernel : Option Item → Bool
  | some i => i.kind = K4Kind.mpi
  | none => false

/-- `CUDAQueue._exec_item`: dispatch on the kind, run the kernel (a
compute kernel works on the streams, an MPI kernel appends its request
handles to `self._mpireqs`), raise on anything else, then record the item
as `self._last`. -/
def execItem (s : QState) (i : Item) : Except String QState :=
  if iscomputekernel (some i) then
    .ok { s with trace := s.trace ++ [.run i], last := some i }
  else if ismpikernel (some i) then
    .ok { s with trace := s.trace ++ [.run i],
                 mpireqs := s.mpireqs ++ i.reqs, last := some i }
  else
    .error "Non compute/MPI kernel in queue"

/-- `CUDAQueue._at_sequence_point`. -/
def atSequencePoint (s : QState) (i : Item) : Bool :=
  (iscomputekernel s.last && !iscomputekernel (some i)) ||
    (ismpikernel s.last && !ismpikernel (some i))

/-- `CUDAQueue._wait`: synchronise both streams after compute work, wait
out and clear the request list after MPI work, then clear `self._last`. -/
def wait (s : QState) : QState :=
  if iscomputekernel s.last then
    { s with trace := s.trace ++ [.syncComp, .syncCopy], last := none }
  else if ismpikernel s.last then
    { s with trace := s.trace ++ [.waitall s.mpireqs], mpireqs := [],
             last := none }
  else
    { s with last := none }

/-- The body of `CUDAQueue._exec_next` after the `popleft`: wait if the
dequeued item is at a sequence point, then execute it. -/
def execNext1 (s : QState) (i : Item) : Except String QState :=
  execItem (if atSequencePoint s i then wait s else s) i

/-- `CUDAQueue._exec_next`. -/
def execNext (q : Queue) : Except String Queue :=
  match q.items with
  | [] => .error "pop from an empty deque"
  | i :: rest =>
    match execNext1 q.st i with
    | .error e => .error e
    | .ok s => .ok ⟨s, rest⟩

/-- The loop of `CUDAQueue._exec_nowait`: pop and execute items while the
front of the deque is not at a sequence point. -/
def execNowaitL (s : QState) : List Item → Except String Queue
  | [] => .ok ⟨s, []⟩
  | i :: rest =>
    if atSequencePoint s i then .ok ⟨s, i :: rest⟩
    else
      match execItem s i with
      | .error e => .error e
      | .ok s' => execNowaitL s' rest

/-- `CUDAQueue._exec_nowait`. -/
def execNowait (q : Queue) : Except String Queue :=
  execNowaitL q.st q.items

/-- The `while self._items: self._exec_next()` loop of `CUDAQueue.run`,
recursing on the pending deque. -/
def runL (s : QState) : List Item → Except String QState
  | [] => .ok s
  | i :: rest =>
    match execNext1 s i with
    | .error e => .error e
    | .ok s' => runL s' rest

/-- `CUDAQueue.run`: drain all pending items, then a final `_wait`. -/
def run (q : Queue) : Except String Queue :=
  match runL q.st q.items with
  | .error e => .error e
  | .ok s => .ok ⟨wait s, []⟩

/-- One queue's share of a pass of the `runall` while-loop:
`it.ifilter(None, queues)` skips empty queues, the rest get
`q._exec_next(); q._exec_nowait()`. -/
def runallPassQ (q : Queue) : Except String Queue :=
  match q.items with
  | [] => .ok q
  | i :: rest =>
    match execNext1 q.st i with
    | .error e => .error e
    | .ok s => execNowaitL s rest

/-- One full pass of the `runall` while-loop over all queues. -/
def runallPass : List Queue → Except String (List Queue)
  | [] => .ok []
  | q :: qs =>
    match runallPassQ q with
    | .error e => .error e
    | .ok q' =>
      match runallPass qs with
      | .error e => .error e
      | .ok qs' => .ok (q' :: qs')

/-- Total number of pending items across the queues. -/
def totalItems (qs : List Queue) : Nat :=
  (qs.map (fun q => q.items.length)).sum

/-- The `while any(queues)` loop of `runall`.  Each pass strictly
decreases `totalItems`, so fuel `totalItems qs` always suffices (proved
below); the fuel-exhausted branch is never reached from `runall`. -/
def runallFuel : Nat → List Queue → Except String (List Queue)
  | 0, qs => .ok qs
  | n + 1, qs =>
    if qs.all (fun q => q.items.isEmpty) then .ok qs
    else
      match runallPass qs with
      | .error e => .error e
      | .ok qs' => runallFuel n qs'

/-- The first phase of `runall`: `for q in queues: q._exec_nowait()`. -/
def execNowaitAll : List Queue → Except String (List Queue)
  | [] => .ok []
  | q :: qs =>
    match execNowait q with
    | .error e => .error e
    | .ok q' =>
      match execNowaitAll qs with
      | .error e => .error e
      | .ok qs' => .ok (q' :: qs')

/-- `CUDAQueue.runall`: issue every queue's non-waiting front, loop until
all queues are drained, then wait each queue out. -/
def runall (qs : List Queue) : Except String (List Queue) :=
  match execNowaitAll qs with
  | .error e => .error e
  | .ok qs1 =>
    match runallFuel (totalItems qs1) qs1 with
    | .error e => .error e
    | .ok qs2 => .ok (qs2.map (fun q => ⟨wait q.st, q.items⟩))

/-- `CUDAQueue.__init__` followed by `queue << items`: no last kernel, no
outstanding requests, nothing executed yet. -/
def initQ (items : List Item) : Queue :=
  ⟨⟨none, [], []⟩, items⟩

/-- A valid work item is a compute or an MPI kernel. -/
def validItem (i : Item) : Prop :=
  i.kind = K4Kind.compute ∨ i.kind = K4Kind.mpi

instance (i : Item) : Decidable (validItem i) := by
  unfold validItem; infer_instance

/-- All pending items are valid kernels. -/
def ValidItems (l : List Item) : Prop :=
  ∀ i ∈ l, validItem i

instance (l : List Item) : Decidable (ValidItems l) := by
  unfold ValidItems; infer_instance

/-- `self._last` is `None` or a valid kernel. -/
def validLast (s : QState) : Prop :=
  s.last = none ∨ ∃ i, s.last = some i ∧ validItem i

/-- The events marking the start of a blocking `_wait`: each compute wait
contributes one `syncComp` (followed by its `syncCopy`), each MPI wait one
`waitall`; so counting them counts the `_wait` calls that block. -/
def isWaitEv : Event → Bool
  | .syncComp => true
  | .waitall _ => true
  | _ => false

/-- Number of blocking waits recorded in a trace. -/
def numWaits (tr : List Event) : Nat :=
  (tr.filter isWaitEv).length

/-- Is the event a kernel `run` call? -/
def isRunEv : Event → Bool
  | .run _ => true
  | _ => false

/-- The items executed in a trace, in order. -/
def execedItems (tr : List Event) : List Item :=
  tr.filterMap fun e =>
    match e with
    | .run i => some i
    | _ => none

/-- The queue-state invariant behind claim C10: outstanding MPI requests
only ever accumulate under an MPI `self._last`. -/
def InvMpi (s : QState) : Prop :=
  s.mpireqs ≠ [] → ismpikernel s.last = true

/-- Simulation relation used to track one queue across `runall` steps:
running out the remainder gives the same result as running out the
original, the MPI-request invariant transfers, and the remaining items
are a suffix of the original pending items. -/
def RunEqInv (q q' : Queue) : Prop :=
  runL q.st q.items = runL q'.st q'.items ∧
  (InvMpi q.st → InvMpi q'.st) ∧
  ∃ pre, q.items = pre ++ q'.items

/-- The queue states reachable from a fresh queue by enqueueing valid
kernels and driving the queue through its public operations. -/
inductive Reach : Queue → Prop where
  | fresh : Reach (initQ [])
  | enq (q : Queue) (l : List Item) (hq : Reach q) (hl : ValidItems l) :
      Reach ⟨q.st, q.items ++ l⟩
  | next (q q' : Queue) (hq : Reach q) (h : execNext q = .ok q') : Reach q'
  | nowait (q q' : Queue) (hq : Reach q) (h : execNowait q = .ok q') :
      Reach q'
  | runStep (q q' : Queue) (hq : Reach q) (h : run q = .ok q') : Reach q'
  | runallStep (qs qs' : List Queue) (q' : Queue)
      (hqs : ∀ q ∈ qs, Reach q) (h : runall qs = .ok qs')
      (hmem : q' ∈ qs') : Reach q'

/-! ## Theorems -/

theorem fmod_pos_negSucc (a b : Nat) :
    Int.fmod (Int.ofNat (a + 1)) (Int.negSucc b) =
      Int.subNatNat (a % (b + 1)) b := rfl

theorem neg_coe_succ (b : Nat) : -((b : Int) + 1) = Int.negSucc b := by
  rw [Int.negSucc_eq]

theorem cast_div_add_mod (a b : Nat) :
    (a : Int) = ((b : Int) + 1) * ((a / (b + 1) : Nat) : Int) +
      ((a % (b + 1) : Nat) : Int) := by
  have h0 : ((((b + 1) * (a / (b + 1)) + a % (b + 1)) : Nat) : Int) =
      (a : Int) := Nat.cast_inj.mpr (Nat.div_add_mod a (b + 1))
  simp only [Nat.cast_add, Nat.cast_mul, Nat.cast_one] at h0
  linarith

theorem coe_succ_eq_ofNat (a : Nat) : Int.ofNat (a + 1) = ((a : Int) + 1) :=
  by
  rw [Int.ofNat_eq_natCast]; push_cast; ring

theorem leaddim_rep (a b : Nat) :
    leaddim ((a : Int) + 1) ((b : Int) + 1) =
      ((b : Int) + 1) * (((a / (b + 1) : Nat) : Int) + 1) := by
  unfold leaddim
  rw [← coe_succ_eq_ofNat, neg_coe_succ, fmod_pos_negSucc,
    Int.subNatNat_eq_coe, coe_succ_eq_ofNat]
  linear_combination cast_div_add_mod a b

/-- Claim C2: for any buffer construction with `ncol ≥ 1` and effective
alignment modulus `m ≥ 1`, the computed `leaddim` is the least integer
that is `≥ ncol` and divisible by `m`; `ncol = 13, m = 4` gives `16`,
`ncol = 16, m = 4` gives `16`, and without the `'align'` tag the modulus
is `1`, so `leaddim = ncol`. -/
theorem leaddim_minimal_aligned (ncol m : Int) (h1 : 1 ≤ ncol)
    (h2 : 1 ≤ m) :
    (ncol ≤ leaddim ncol m ∧ leaddim ncol m % m = 0 ∧
      ∀ k : Int, ncol ≤ k → k % m = 0 → leaddim ncol m ≤ k) ∧
    leaddim 13 4 = 16 ∧ leaddim 16 4 = 16 ∧
    (∀ alignb itemsize : Nat, ∀ tags : List String, "align" ∉ tags →
      leaddim ncol ((ldmodOf alignb itemsize tags : Nat) : Int) = ncol) :=
  by
  obtain ⟨a', ha'⟩ := Int.eq_ofNat_of_zero_le (le_trans (by norm_num) h1)
  obtain ⟨b', hb'⟩ := Int.eq_ofNat_of_zero_le (le_trans (by norm_num) h2)
  have ha1 : 1 ≤ a' := by omega
  have hb1 : 1 ≤ b' := by omega
  obtain ⟨a, rfl⟩ : ∃ a, a' = a + 1 := ⟨a' - 1, by omega⟩
  obtain ⟨b, rfl⟩ : ∃ b, b' = b + 1 := ⟨b' - 1, by omega⟩
  have hncol : ncol = (a : Int) + 1 := by rw [ha']; push_cast; ring
  have hm : m = (b : Int) + 1 := by rw [hb']; push_cast; ring
  subst hncol; subst hm
  have hrep := leaddim_rep a b
  have hdm' := cast_div_add_mod a b
  have hr' : ((a % (b + 1) : Nat) : Int) < (b : Int) + 1 := by
    have hr : a % (b + 1) < b + 1 := Nat.mod_lt a (by omega)
    exact_mod_cast hr
  have hmodnn : (0 : Int) ≤ ((a % (b + 1) : Nat) : Int) := by positivity
  constructor
  · refine ⟨?_, ?_, ?_⟩
    · rw [hrep]
      have hexp : ((b : Int) + 1) * (((a / (b + 1) : Nat) : Int) + 1) =
          ((b : Int) + 1) * ((a / (b + 1) : Nat) : Int) + ((b : Int) + 1) :=
        by ring
      rw [hexp]
      linarith
    · rw [hrep]
      exact Int.mul_emod_right _ _
    · intro k hk hkm
      obtain ⟨j, hj⟩ := Int.dvd_of_emod_eq_zero hkm
      rw [hrep]
      -- k = (b+1) * j exceeds (b+1) * (a/(b+1)), hence j > a/(b+1)
      have hlt : ((b : Int) + 1) * ((a / (b + 1) : Nat) : Int) <
          ((b : Int) + 1) * j := by
        rw [← hj]; linarith
      have hjlt : ((a / (b + 1) : Nat) : Int) < j :=
        lt_of_mul_lt_mul_left hlt (by positivity)
      have hle : ((b : Int) + 1) * (((a / (b + 1) : Nat) : Int) + 1) ≤
          ((b : Int) + 1) * j := by
        apply mul_le_mul_of_nonneg_left _ (by positivity)
        omega
      rw [hj]
      exact hle
  · refine ⟨by decide, by decide, ?_⟩
    intro alignb itemsize tags htags
    unfold ldmodOf
    rw [if_neg htags]
    show ((a : Int) + 1) - Int.fmod ((a : Int) + 1) (-((1 : Nat) : Int)) =
      (a : Int) + 1
    have hneg : (-((1 : Nat) : Int)) = Int.negSucc 0 := rfl
    rw [← coe_succ_eq_ofNat, hneg, fmod_pos_negSucc]
    simp [Int.subNatNat]

/-- Witness for C2 at `ncol = 13`, `m = 4`. -/
theorem leaddim_minimal_aligned_witness :
    (13 : Int) ≤ leaddim 13 4 ∧ leaddim 13 4 % 4 = 0 :=
  ⟨((leaddim_minimal_aligned 13 4 (by decide) (by decide)).1).1,
   ((leaddim_minimal_aligned 13 4 (by decide) (by decide)).1).2.1⟩

/-! ### Queue basics -/

theorem execItem_comp (s : QState) (i : Item)
    (h : i.kind = K4Kind.compute) :
    execItem s i =
      .ok { s with trace := s.trace ++ [.run i], last := some i } := by
  simp [execItem, iscomputekernel, h]

theorem execItem_mpi (s : QState) (i : Item) (h : i.kind = K4Kind.mpi) :
    execItem s i =
      .ok { s with trace := s.trace ++ [.run i],
                   mpireqs := s.mpireqs ++ i.reqs, last := some i } := by
  simp [execItem, iscomputekernel, ismpikernel, h]

/-- Claim C9: an item that is neither a compute kernel nor an MPI kernel
is rejected by `_exec_item` with a `ValueError` before the item runs: no
`run` call of the item is ever recorded and `self._last` is never set to
it (in the `Except` embedding, no success state exists at all), and
dequeueing it through `_exec_next` is equally fatal. -/
theorem unknown_kind_raises (s : QState) (i : Item) (h : ¬ validItem i) :
    execItem s i = .error "Non compute/MPI kernel in queue" ∧
    (∀ s', execItem s i ≠ .ok s') ∧
    (∀ rest : List Item,
      execNext ⟨s, i :: rest⟩ = .error "Non compute/MPI kernel in queue") :=
  by
  unfold validItem at h
  push_neg at h
  have herr : ∀ t : QState, execItem t i =
      .error "Non compute/MPI kernel in queue" := by
    intro t
    simp [execItem, iscomputekernel, ismpikernel, h.1, h.2]
  refine ⟨herr s, ?_, ?_⟩
  · intro s' hc
    rw [herr s] at hc
    exact Except.noConfusion hc
  · intro rest
    simp [execNext, execNext1, herr]

/-- Witness for C9 at a concrete non-compute/non-MPI item. -/
theorem unknown_kind_raises_witness :
    execItem ⟨none, [], []⟩ ⟨0, K4Kind.other, []⟩ =
      .error "Non compute/MPI kernel in queue" :=
  (unknown_kind_raises ⟨none, [], []⟩ ⟨0, K4Kind.other, []⟩
    (by decide)).1

/-- Claim C1: for a queue holding only compute/MPI kernels, a dequeued
item waits before executing iff `self._last` is defined and of the other
kind; a wait under a compute `last` synchronizes both streams and clears
`last`; a wait under an MPI `last` waits out all outstanding request
handles, empties the list, and clears `last`.  (`_exec_next` performs the
wait, when required, before running the item.) -/
theorem sequence_point_iff_kind_change (s : QState) (i : Item)
    (hi : validItem i) (hl : validLast s) :
    (atSequencePoint s i = true ↔
      ∃ l, s.last = some l ∧ l.kind ≠ i.kind) ∧
    (execNext1 s i =
      execItem (if atSequencePoint s i then wait s else s) i) ∧
    (∀ l, s.last = some l → l.kind = K4Kind.compute →
      wait s = { s with trace := s.trace ++ [.syncComp, .syncCopy],
                        last := none }) ∧
    (∀ l, s.last = some l → l.kind = K4Kind.mpi →
      wait s = { s with trace := s.trace ++ [.waitall s.mpireqs],
                        mpireqs := [], last := none }) := by
  refine ⟨?_, rfl, ?_, ?_⟩
  · rcases hl with hnone | ⟨l, hsome, hlv⟩
    · simp [atSequencePoint, iscomputekernel, ismpikernel, hnone]
    · rcases hlv with hk | hk <;> rcases hi with hk' | hk' <;>
        simp [atSequencePoint, iscomputekernel, ismpikernel, hsome, hk,
          hk']
  · intro l hsome hc
    simp [wait, iscomputekernel, hsome, hc]
  · intro l hsome hm
    simp [wait, iscomputekernel, ismpikernel, hsome, hm]

/-- Witness for C1: compute `last`, MPI item. -/
theorem sequence_point_iff_kind_change_witness :
    atSequencePoint ⟨some ⟨0, K4Kind.compute, []⟩, [], []⟩
        ⟨1, K4Kind.mpi, [5]⟩ = true ↔
      ∃ l, (some ⟨0, K4Kind.compute, []⟩ : Option Item) = some l ∧
        l.kind ≠ K4Kind.mpi := by
  have h := sequence_point_iff_kind_change
    ⟨some ⟨0, K4Kind.compute, []⟩, [], []⟩ ⟨1, K4Kind.mpi, [5]⟩
    (by decide) (Or.inr ⟨⟨0, K4Kind.compute, []⟩, rfl, by decide⟩)
  exact h.1

/-- Claim C6: a full `run` of a queue whose pending kinds are
`[Compute, Compute, Compute]` performs exactly one blocking wait — the
final run-completion wait after the last item — and no wait between
items (the full trace makes this explicit). -/
theorem drain_without_wait (i1 i2 i3 : Item)
    (h1 : i1.kind = K4Kind.compute) (h2 : i2.kind = K4Kind.compute)
    (h3 : i3.kind = K4Kind.compute) :
    run (initQ [i1, i2, i3]) =
      .ok ⟨⟨none, [],
        [.run i1, .run i2, .run i3, .syncComp, .syncCopy]⟩, []⟩ ∧
    numWaits [Event.run i1, .run i2, .run i3, .syncComp, .syncCopy] = 1 :=
  by
  constructor
  · simp [run, runL, execNext1, execItem, atSequencePoint, iscomputekernel,
      ismpikernel, wait, initQ, h1, h2, h3]
  · simp [numWaits, isWaitEv]

/-- Witness for C6 at concrete compute items. -/
theorem drain_without_wait_witness :
    run (initQ [⟨0, K4Kind.compute, []⟩, ⟨1, K4Kind.compute, []⟩,
        ⟨2, K4Kind.compute, []⟩]) =
      .ok ⟨⟨none, [],
        [.run ⟨0, K4Kind.compute, []⟩, .run ⟨1, K4Kind.compute, []⟩,
         .run ⟨2, K4Kind.compute, []⟩, .syncComp, .syncCopy]⟩, []⟩ :=
  (drain_without_wait ⟨0, K4Kind.compute, []⟩ ⟨1, K4Kind.compute, []⟩
    ⟨2, K4Kind.compute, []⟩ rfl rfl rfl).1

/-- Counterexample to claim C3 as stated: fully running the queue
`[Compute, Compute, MPI, MPI, Compute]` does not perform exactly 2
blocking waits — `run` finishes with a final run-completion wait, so 3
blocking waits occur. -/
theorem seq_point_count_cex :
    ¬ ((run (initQ [⟨0, K4Kind.compute, []⟩, ⟨1, K4Kind.compute, []⟩,
          ⟨2, K4Kind.mpi, [10]⟩, ⟨3, K4Kind.mpi, [11]⟩,
          ⟨4, K4Kind.compute, []⟩])).toOption.map
        (fun q => numWaits q.st.trace) = some 2) := by decide

/-- Claim C3, amended: a full `run` of a queue whose pending kinds are
`[Compute, Compute, MPI, MPI, Compute]` executes the items in enqueue
order and performs exactly 3 blocking waits: one before the first MPI
item, one before the final Compute item, and the final run-completion
wait. -/
theorem seq_point_count (i1 i2 i3 i4 i5 : Item)
    (h1 : i1.kind = K4Kind.compute) (h2 : i2.kind = K4Kind.compute)
    (h3 : i3.kind = K4Kind.mpi) (h4 : i4.kind = K4Kind.mpi)
    (h5 : i5.kind = K4Kind.compute) :
    run (initQ [i1, i2, i3, i4, i5]) =
      .ok ⟨⟨none, [],
        [.run i1, .run i2, .syncComp, .syncCopy, .run i3, .run i4,
         .waitall (i3.reqs ++ i4.reqs), .run i5, .syncComp, .syncCopy]⟩,
        []⟩ ∧
    numWaits [Event.run i1, .run i2, .syncComp, .syncCopy, .run i3,
      .run i4, .waitall (i3.reqs ++ i4.reqs), .run i5, .syncComp,
      .syncCopy] = 3 ∧
    execedItems [Event.run i1, .run i2, .syncComp, .syncCopy, .run i3,
      .run i4, .waitall (i3.reqs ++ i4.reqs), .run i5, .syncComp,
      .syncCopy] = [i1, i2, i3, i4, i5] := by
  refine ⟨?_, by simp [numWaits, isWaitEv], by simp [execedItems]⟩
  simp [run, runL, execNext1, execItem, atSequencePoint, iscomputekernel,
    ismpikernel, wait, initQ, h1, h2, h3, h4, h5]

/-- Witness for the amended C3 at concrete items. -/
theorem seq_point_count_witness :
    run (initQ [⟨0, K4Kind.compute, []⟩, ⟨1, K4Kind.compute, []⟩,
        ⟨2, K4Kind.mpi, [10]⟩, ⟨3, K4Kind.mpi, [11]⟩,
        ⟨4, K4Kind.compute, []⟩]) =
      .ok ⟨⟨none, [],
        [.run ⟨0, K4Kind.compute, []⟩, .run ⟨1, K4Kind.compute, []⟩,
         .syncComp, .syncCopy, .run ⟨2, K4Kind.mpi, [10]⟩,
         .run ⟨3, K4Kind.mpi, [11]⟩, .waitall ([10] ++ [11]),
         .run ⟨4, K4Kind.compute, []⟩, .syncComp, .syncCopy]⟩, []⟩ :=
  (seq_point_count ⟨0, K4Kind.compute, []⟩ ⟨1, K4Kind.compute, []⟩
    ⟨2, K4Kind.mpi, [10]⟩ ⟨3, K4Kind.mpi, [11]⟩ ⟨4, K4Kind.compute, []⟩
    rfl rfl rfl rfl rfl).1

/-! ### Matrix transfer (claims C4, C8) -/

theorem rowcol_div (n r c : Nat) (hc : c < n) : (r * n + c) / n = r := by
  have h0 : 0 < n := by omega
  have h1 : r * n + c = c + n * r := by ring
  rw [h1, Nat.add_mul_div_left c r h0, Nat.div_eq_of_lt hc]
  omega

theorem rowcol_mod (n r c : Nat) (hc : c < n) : (r * n + c) % n = c := by
  have h1 : r * n + c = n * r + c := by ring
  rw [h1, Nat.mul_add_mod, Nat.mod_eq_of_lt hc]

theorem getD_eq_getElem_of_lt (l : List β) (d : β) (i : Nat)
    (h : i < l.length) : l.getD i d = l[i] := by
  rw [List.getD_eq_getElem?_getD, List.getElem?_eq_getElem h]
  rfl

theorem rowMajor_at (α : Type) [Inhabited α] (A : List (List α))
    (ncol r c : Nat) (hc : c < ncol) :
    rowMajor α ncol A (r * ncol + c) = (A.getD r []).getD c default := by
  unfold rowMajor
  rw [rowcol_div ncol r c hc, rowcol_mod ncol r c hc]

/-- Reading `copy2d` output inside the copied region. -/
theorem copy2d_in (α : Type) (srcPitch dstPitch width rows : Nat)
    (src dst : Nat → α) (r c : Nat) (hr : r < rows) (hc : c < width)
    (hw : width ≤ dstPitch) :
    copy2d α srcPitch dstPitch width rows src dst (r * dstPitch + c) =
      src (r * srcPitch + c) := by
  have hcd : c < dstPitch := lt_of_lt_of_le hc hw
  unfold copy2d
  rw [rowcol_div dstPitch r c hcd, rowcol_mod dstPitch r c hcd]
  rw [if_pos ⟨hr, hc⟩]

/-- Reading `copy2d` output outside the copied region. -/
theorem copy2d_out (α : Type) (srcPitch dstPitch width rows : Nat)
    (src dst : Nat → α) (a : Nat)
    (h : ¬ (a / dstPitch < rows ∧ a % dstPitch < width)) :
    copy2d α srcPitch dstPitch width rows src dst a = dst a := by
  unfold copy2d
  rw [if_neg h]

/-- `get` reads exactly the data region, row by row. -/
theorem get_eq_region (α : Type) (m : DevMat α) (junk : Nat → α)
    (_hld : m.ncol ≤ m.lddim) :
    DevMat.get α m junk =
      (List.range m.nrow).map fun r => (List.range m.ncol).map fun c =>
        m.mem (r * m.lddim + c) := by
  unfold DevMat.get
  apply List.map_congr_left
  intro r hr
  rw [List.mem_range] at hr
  apply List.map_congr_left
  intro c hc
  rw [List.mem_range] at hc
  have h1 : (r * m.ncol + c) / m.ncol = r := rowcol_div m.ncol r c hc
  have h2 : (r * m.ncol + c) % m.ncol = c := rowcol_mod m.ncol r c hc
  show copy2d α m.lddim m.ncol m.ncol m.nrow m.mem junk (r * m.ncol + c) =
    m.mem (r * m.lddim + c)
  unfold copy2d
  rw [h1, h2, if_pos ⟨hr, hc⟩]

/-- The row-by-row image of a well-shaped array is the array itself. -/
theorem region_map_eq (α : Type) [Inhabited α] (A : List (List α))
    (nrow ncol : Nat) (h : shapeEq α A nrow ncol) :
    ((List.range nrow).map fun r => (List.range ncol).map fun c =>
      (A.getD r []).getD c default) = A := by
  obtain ⟨hA, hrows⟩ := h
  apply List.ext_getElem
  · simp [hA]
  · intro i h1 h2
    simp only [List.getElem_map, List.getElem_range]
    rw [getD_eq_getElem_of_lt A [] i h2]
    apply List.ext_getElem
    · simp [hrows A[i] (List.getElem_mem h2)]
    · intro j h3 h4
      simp only [List.getElem_map, List.getElem_range]
      rw [getD_eq_getElem_of_lt A[i] default j h4]

/-- Claim C4: for a placed buffer and a host array of the buffer's shape,
`set(A)` succeeds and a following `get()` returns an array equal to `A`
in the buffer's I/O shape; the padding beyond `ncol` in each padded row
is neither written by `set` (device padding unchanged) nor read by `get`
(the result is independent of the uninitialised host buffer and of all
device elements outside the data region). -/
theorem set_get_round_trip (α : Type) [Inhabited α] (m : DevMat α)
    (A : List (List α)) (junk junk' : Nat → α)
    (hshape : shapeEq α A m.nrow m.ncol) (hld : m.ncol ≤ m.lddim) :
    ∃ m' : DevMat α, DevMat.set α m A = .ok m' ∧
      DevMat.get α m' junk = A ∧
      (∀ a : Nat, ¬ inRegion m.nrow m.ncol m.lddim a →
        m'.mem a = m.mem a) ∧
      DevMat.get α m' junk = DevMat.get α m' junk' ∧
      (∀ mem2 : Nat → α,
        (∀ a, inRegion m.nrow m.ncol m.lddim a → mem2 a = m'.mem a) →
        DevMat.get α ⟨m.nrow, m.ncol, m.lddim, mem2⟩ junk = A) := by
  have hset : DevMat.set α m A =
      .ok { m with mem := copy2d α m.ncol m.lddim m.ncol m.nrow
                     (rowMajor α m.ncol A) m.mem } := by
    unfold DevMat.set
    rw [if_pos hshape]
  have hget : ∀ j : Nat → α,
      DevMat.get α { m with mem := (copy2d α m.ncol m.lddim m.ncol m.nrow
                      (rowMajor α m.ncol A) m.mem) } j =
        (List.range m.nrow).map fun r => (List.range m.ncol).map fun c =>
          copy2d α m.ncol m.lddim m.ncol m.nrow (rowMajor α m.ncol A)
            m.mem (r * m.lddim + c) :=
    fun j => get_eq_region α _ j hld
  refine ⟨_, hset, ?_, ?_, ?_, ?_⟩
  · rw [hget junk]
    have hstep : ∀ r < m.nrow, ∀ c < m.ncol,
        copy2d α m.ncol m.lddim m.ncol m.nrow (rowMajor α m.ncol A) m.mem
          (r * m.lddim + c) = (A.getD r []).getD c default := by
      intro r hr c hc
      rw [copy2d_in α m.ncol m.lddim m.ncol m.nrow _ _ r c hr hc hld]
      exact rowMajor_at α A m.ncol r c hc
    have hmaps : ((List.range m.nrow).map fun r =>
        (List.range m.ncol).map fun c =>
          copy2d α m.ncol m.lddim m.ncol m.nrow (rowMajor α m.ncol A)
            m.mem (r * m.lddim + c)) =
        ((List.range m.nrow).map fun r =>
          (List.range m.ncol).map fun c =>
            (A.getD r []).getD c default) := by
      apply List.map_congr_left
      intro r hr
      rw [List.mem_range] at hr
      apply List.map_congr_left
      intro c hc
      rw [List.mem_range] at hc
      exact hstep r hr c hc
    rw [hmaps, region_map_eq α A m.nrow m.ncol hshape]
  · intro a ha
    exact copy2d_out α m.ncol m.lddim m.ncol m.nrow _ _ a ha
  · rw [hget junk, hget junk']
  · intro mem2 hagree
    have hget2 := get_eq_region α ⟨m.nrow, m.ncol, m.lddim, mem2⟩ junk hld
    rw [hget2]
    have hstep : ∀ r < m.nrow, ∀ c < m.ncol,
        mem2 (r * m.lddim + c) = (A.getD r []).getD c default := by
      intro r hr c hc
      have hreg : inRegion m.nrow m.ncol m.lddim (r * m.lddim + c) := by
        have hcd : c < m.lddim := lt_of_lt_of_le hc hld
        exact ⟨by rw [rowcol_div m.lddim r c hcd]; exact hr,
               by rw [rowcol_mod m.lddim r c hcd]; exact hc⟩
      rw [hagree _ hreg]
      show copy2d α m.ncol m.lddim m.ncol m.nrow (rowMajor α m.ncol A)
        m.mem (r * m.lddim + c) = _
      rw [copy2d_in α m.ncol m.lddim m.ncol m.nrow _ _ r c hr hc hld]
      exact rowMajor_at α A m.ncol r c hc
    have hmaps : ((List.range m.nrow).map fun r =>
        (List.range m.ncol).map fun c => mem2 (r * m.lddim + c)) =
        ((List.range m.nrow).map fun r =>
          (List.range m.ncol).map fun c =>
            (A.getD r []).getD c default) := by
      apply List.map_congr_left
      intro r hr
      rw [List.mem_range] at hr
      apply List.map_congr_left
      intro c hc
      rw [List.mem_range] at hc
      exact hstep r hr c hc
    rw [hmaps, region_map_eq α A m.nrow m.ncol hshape]

/-- Witness for C4 on a concrete 2×3 buffer with padding. -/
theorem set_get_round_trip_witness :
    ∃ m' : DevMat Int,
      DevMat.set Int ⟨2, 3, 4, fun _ => 99⟩ [[1, 2, 3], [4, 5, 6]] =
        .ok m' ∧
      DevMat.get Int m' (fun _ => 77) = [[1, 2, 3], [4, 5, 6]] := by
  obtain ⟨m', h1, h2, -, -, -⟩ := set_get_round_trip Int
    ⟨2, 3, 4, fun _ => 99⟩ [[1, 2, 3], [4, 5, 6]]
    (fun _ => 77) (fun _ => 77) (by constructor <;> decide) (by decide)
  exact ⟨m', h1, h2⟩

/-- Claim C8: `set` called with an array whose shape differs from the
buffer's I/O shape raises `ValueError('Invalid matrix shape')`
synchronously — before the device copy, so in the `Except` embedding no
written device state exists and the caller's buffer is untouched — while
a call with the correct shape never raises. -/
theorem set_shape_mismatch (α : Type) [Inhabited α] (m : DevMat α)
    (A : List (List α)) :
    (¬ shapeEq α A m.nrow m.ncol →
      DevMat.set α m A = .error "Invalid matrix shape") ∧
    (shapeEq α A m.nrow m.ncol →
      ∃ m' : DevMat α, DevMat.set α m A = .ok m' ∧ m'.nrow = m.nrow ∧
        m'.ncol = m.ncol ∧ m'.lddim = m.lddim) := by
  constructor
  · intro h
    unfold DevMat.set
    rw [if_neg h]
  · intro h
    unfold DevMat.set
    rw [if_pos h]
    exact ⟨_, rfl, rfl, rfl, rfl⟩

/-- Witness for C8: a 2-row array against a 2×3 buffer succeeds, a
mis-shaped array errors. -/
theorem set_shape_mismatch_witness :
    DevMat.set Int ⟨2, 3, 4, fun _ => 99⟩ [[1, 2], [4, 5, 6]] =
      .error "Invalid matrix shape" := by
  apply (set_shape_mismatch Int ⟨2, 3, 4, fun _ => 99⟩
    [[1, 2], [4, 5, 6]]).1
  intro hc
  have hrow := hc.2 [1, 2] (by simp)
  simp at hrow

/-! ### View offsets (claim C7) -/

theorem wrap32_eq (x : Int) (h1 : -2 ^ 31 ≤ x) (h2 : x < 2 ^ 31) :
    wrap32 x = x := by
  unfold wrap32
  have ha : (0 : Int) ≤ x + 2 ^ 31 := by omega
  have hb : x + 2 ^ 31 < 2 ^ 32 := by omega
  rw [Int.emod_eq_of_lt ha hb]
  ring

theorem addWhere_length (matmap : List ViewMat) (r : List Int)
    (m : ViewMat) (off : List Int) (hr : r.length = matmap.length)
    (ho : off.length = matmap.length) :
    (addWhere matmap r m off).length = matmap.length := by
  simp [addWhere, List.length_zip, hr, ho]

theorem addWhere_getD (matmap : List ViewMat) (r : List Int) (m : ViewMat)
    (off : List Int) (hr : r.length = matmap.length)
    (ho : off.length = matmap.length) (i : Nat) (hi : i < matmap.length) :
    (addWhere matmap r m off).getD i 0 =
      if (matmap.getD i default).vid = m.vid then
        wrap32 (off.getD i 0 +
          (m.offset + r.getD i 0 * m.ldim))
      else off.getD i 0 := by
  have hl : (addWhere matmap r m off).length = matmap.length :=
    addWhere_length matmap r m off hr ho
  unfold addWhere at hl ⊢
  rw [getD_eq_getElem_of_lt _ 0 i (by rw [hl]; exact hi),
    getD_eq_getElem_of_lt matmap default i hi,
    getD_eq_getElem_of_lt off 0 i (by omega),
    getD_eq_getElem_of_lt r 0 i (by omega)]
  rw [List.getElem_zipWith, List.getElem_zip]

theorem foldl_addWhere_length (matmap : List ViewMat) (r : List Int)
    (mats : List ViewMat) (off : List Int)
    (hr : r.length = matmap.length) (ho : off.length = matmap.length) :
    ((mats.foldl (fun o m => addWhere matmap r m o) off).length =
      matmap.length) := by
  induction mats generalizing off with
  | nil => exact ho
  | cons m0 rest ih =>
    exact ih (addWhere matmap r m0 off)
      (addWhere_length matmap r m0 off hr ho)

theorem foldl_addWhere_nomatch (matmap : List ViewMat) (r : List Int)
    (mats : List ViewMat) (off : List Int) (i : Nat)
    (hr : r.length = matmap.length) (ho : off.length = matmap.length)
    (hi : i < matmap.length)
    (hno : ∀ m ∈ mats, (matmap.getD i default).vid ≠ m.vid) :
    (mats.foldl (fun o m => addWhere matmap r m o) off).getD i 0 =
      off.getD i 0 := by
  induction mats generalizing off with
  | nil => rfl
  | cons m0 rest ih =>
    show (rest.foldl _ (addWhere matmap r m0 off)).getD i 0 = _
    rw [ih (addWhere matmap r m0 off)
      (addWhere_length matmap r m0 off hr ho)
      (fun m hm => hno m (List.mem_cons_of_mem m0 hm))]
    rw [addWhere_getD matmap r m0 off hr ho i hi]
    rw [if_neg (hno m0 (List.mem_cons_self m0 rest))]

theorem foldl_addWhere_match (matmap : List ViewMat) (r : List Int)
    (mats : List ViewMat) (off : List Int) (i : Nat)
    (hr : r.length = matmap.length) (ho : off.length = matmap.length)
    (hi : i < matmap.length) (hnd : (mats.map ViewMat.vid).Nodup)
    (hmem : matmap.getD i default ∈ mats) :
    (mats.foldl (fun o m => addWhere matmap r m o) off).getD i 0 =
      wrap32 (off.getD i 0 + ((matmap.getD i default).offset +
        r.getD i 0 * (matmap.getD i default).ldim)) := by
  induction mats generalizing off with
  | nil => exact absurd hmem (List.not_mem_nil _)
  | cons m0 rest ih =>
    rw [List.map_cons, List.nodup_cons] at hnd
    by_cases hveq : (matmap.getD i default).vid = m0.vid
    · have hm0 : matmap.getD i default = m0 := by
        rcases List.mem_cons.mp hmem with h | h
        · exact h
        · exact absurd (hveq ▸ List.mem_map_of_mem ViewMat.vid h) hnd.1
      show (rest.foldl _ (addWhere matmap r m0 off)).getD i 0 = _
      rw [foldl_addWhere_nomatch matmap r rest
        (addWhere matmap r m0 off) i hr
        (addWhere_length matmap r m0 off hr ho) hi
        (fun m hm heq => hnd.1 (by
          rw [hm0] at heq
          exact heq ▸ List.mem_map_of_mem ViewMat.vid hm))]
      rw [addWhere_getD matmap r m0 off hr ho i hi, if_pos hveq, hm0]
    · have hmem' : matmap.getD i default ∈ rest := by
        rcases List.mem_cons.mp hmem with h | h
        · exact absurd (congrArg ViewMat.vid h) hveq
        · exact h
      show (rest.foldl _ (addWhere matmap r m0 off)).getD i 0 = _
      rw [ih (addWhere matmap r m0 off)
        (addWhere_length matmap r m0 off hr ho) hnd.2 hmem']
      rw [addWhere_getD matmap r m0 off hr ho i hi, if_neg hveq]

/-- Claim C7: a view compiled from a matrix map, row/column maps, a
stride map and the view shape stores, in its `nrow × ncol` `np.int32`
`mapping` buffer, at each element `i`, exactly
`matmap[i].offset + row[i]*matmap[i].leaddim + col[i]` (provided those
values are `int32`-representable), and its `strides` buffer holds the
supplied per-element stride map. -/
theorem view_offsets_correct (mats matmap : List ViewMat)
    (r c stridemap : List Int) (nrow ncol : Nat)
    (hnd : (mats.map ViewMat.vid).Nodup)
    (hmm : ∀ x ∈ matmap, x ∈ mats)
    (hlr : r.length = matmap.length) (hlc : c.length = matmap.length)
    (hrange : ∀ i, i < matmap.length →
      -2 ^ 31 ≤ c.getD i 0 ∧ c.getD i 0 < 2 ^ 31 ∧
      -2 ^ 31 ≤ (matmap.getD i default).offset +
        r.getD i 0 * (matmap.getD i default).ldim + c.getD i 0 ∧
      (matmap.getD i default).offset +
        r.getD i 0 * (matmap.getD i default).ldim + c.getD i 0 < 2 ^ 31)
    (hranges : ∀ i, i < stridemap.length →
      -2 ^ 31 ≤ stridemap.getD i 0 ∧ stridemap.getD i 0 < 2 ^ 31) :
    (cudaView mats matmap r c stridemap nrow ncol).mapping.vals.length =
      matmap.length ∧
    (∀ i, i < matmap.length →
      (cudaView mats matmap r c stridemap nrow ncol).mapping.vals.getD
          i 0 =
        (matmap.getD i default).offset +
          r.getD i 0 * (matmap.getD i default).ldim + c.getD i 0) ∧
    (cudaView mats matmap r c stridemap nrow ncol).strides.vals =
      stridemap ∧
    (cudaView mats matmap r c stridemap nrow ncol).mapping.nrow = nrow ∧
    (cudaView mats matmap r c stridemap nrow ncol).mapping.ncol = ncol ∧
    (cudaView mats matmap r c stridemap nrow ncol).strides.nrow = nrow ∧
    (cudaView mats matmap r c stridemap nrow ncol).strides.ncol = ncol :=
  by
  have hoc : (c.map wrap32).length = matmap.length := by
    simp [hlc]
  refine ⟨?_, ?_, ?_, rfl, rfl, rfl, rfl⟩
  · exact foldl_addWhere_length matmap r mats (c.map wrap32) hlr hoc
  · intro i hi
    have hmem : matmap.getD i default ∈ mats := by
      apply hmm
      rw [getD_eq_getElem_of_lt matmap default i hi]
      exact List.getElem_mem hi
    show (offmapCompiled mats matmap r c).getD i 0 = _
    unfold offmapCompiled
    rw [foldl_addWhere_match matmap r mats (c.map wrap32) i hlr hoc hi
      hnd hmem]
    have hci : (c.map wrap32).getD i 0 = wrap32 (c.getD i 0) := by
      rw [getD_eq_getElem_of_lt (c.map wrap32) 0 i (by omega),
        getD_eq_getElem_of_lt c 0 i (by omega), List.getElem_map]
    obtain ⟨ha1, ha2, ha3, ha4⟩ := hrange i hi
    rw [hci, wrap32_eq (c.getD i 0) ha1 ha2]
    have hcomm : c.getD i 0 + ((matmap.getD i default).offset +
        r.getD i 0 * (matmap.getD i default).ldim) =
        (matmap.getD i default).offset +
          r.getD i 0 * (matmap.getD i default).ldim + c.getD i 0 := by
      ring
    rw [hcomm, wrap32_eq _ ha3 ha4]
  · show stridemap.map wrap32 = stridemap
    apply List.ext_getElem
    · simp
    · intro i h1 h2
      rw [List.getElem_map]
      obtain ⟨hb1, hb2⟩ := hranges i h2
      rw [getD_eq_getElem_of_lt stridemap 0 i h2] at hb1 hb2
      exact wrap32_eq _ hb1 hb2

/-- Witness for C7 on two matrices and three view elements. -/
theorem view_offsets_correct_witness :
    (cudaView [⟨0, 100, 8⟩, ⟨1, 200, 16⟩]
        [⟨0, 100, 8⟩, ⟨1, 200, 16⟩, ⟨0, 100, 8⟩]
        [2, 3, 1] [5, 6, 7] [8, 16, 8] 1 3).mapping.vals.getD 0 0 =
      121 := by
  have h := view_offsets_correct [⟨0, 100, 8⟩, ⟨1, 200, 16⟩]
    [⟨0, 100, 8⟩, ⟨1, 200, 16⟩, ⟨0, 100, 8⟩]
    [2, 3, 1] [5, 6, 7] [8, 16, 8] 1 3
    (by decide) (by decide) (by decide) (by decide)
    (by
      intro i hi
      have h3 : i < 3 := by simpa using hi
      interval_cases i <;> refine ⟨by decide, by decide, by decide,
        by decide⟩)
    (by
      intro i hi
      have h3 : i < 3 := by simpa using hi
      interval_cases i <;> exact ⟨by decide, by decide⟩)
  rw [h.2.1 0 (by decide)]
  decide

/-! ### Queue machinery for claims C5 and C10 -/

theorem not_comp_and_mpi (o : Option Item) :
    ¬ (iscomputekernel o = true ∧ ismpikernel o = true) := by
  cases o with
  | none => simp [iscomputekernel]
  | some i =>
    simp only [iscomputekernel, ismpikernel, decide_eq_true_eq]
    rintro ⟨h1, h2⟩
    rw [h1] at h2
    exact K4Kind.noConfusion h2

theorem wait_last (s : QState) : (wait s).last = none := by
  unfold wait
  split
  · rfl
  · split <;> rfl

theorem wait_reqs_of_inv (s : QState) (h : InvMpi s) :
    (wait s).mpireqs = [] := by
  unfold wait
  by_cases hc : iscomputekernel s.last = true
  · rw [if_pos hc]
    show s.mpireqs = []
    by_cases hreq : s.mpireqs = []
    · exact hreq
    · exact absurd ⟨hc, h hreq⟩ (not_comp_and_mpi s.last)
  · rw [if_neg hc]
    by_cases hm : ismpikernel s.last = true
    · rw [if_pos hm]
    · rw [if_neg hm]
      show s.mpireqs = []
      by_cases hreq : s.mpireqs = []
      · exact hreq
      · exact absurd (h hreq) hm

theorem wait_inv (s : QState) (h : InvMpi s) : InvMpi (wait s) := by
  intro hne
  exact absurd (wait_reqs_of_inv s h) hne

theorem execedItems_append (t1 t2 : List Event) :
    execedItems (t1 ++ t2) = execedItems t1 ++ execedItems t2 :=
  List.filterMap_append t1 t2 _

theorem wait_execed (s : QState) :
    execedItems (wait s).trace = execedItems s.trace := by
  unfold wait
  split
  · simp [execedItems_append, execedItems]
  · split
    · simp [execedItems_append, execedItems]
    · rfl

theorem execItem_ok_cases (s : QState) (i : Item) (s' : QState)
    (h : execItem s i = .ok s') :
    (i.kind = K4Kind.compute ∧
      s' = { s with trace := s.trace ++ [.run i], last := some i }) ∨
    (i.kind = K4Kind.mpi ∧
      s' = { s with trace := s.trace ++ [.run i],
                    mpireqs := s.mpireqs ++ i.reqs, last := some i }) := by
  unfold execItem at h
  by_cases hc : iscomputekernel (some i) = true
  · rw [if_pos hc] at h
    left
    refine ⟨by simpa [iscomputekernel] using hc, ?_⟩
    exact (Except.ok.injEq _ _).mp h.symm |>.symm ▸ rfl
  · rw [if_neg hc] at h
    by_cases hm : ismpikernel (some i) = true
    · rw [if_pos hm] at h
      right
      refine ⟨by simpa [ismpikernel] using hm, ?_⟩
      exact (Except.ok.injEq _ _).mp h.symm |>.symm ▸ rfl
    · rw [if_neg hm] at h
      exact Except.noConfusion h

theorem execItem_ok_of_valid (s : QState) (i : Item) (hv : validItem i) :
    ∃ s', execItem s i = .ok s' := by
  rcases hv with hc | hm
  · exact ⟨_, execItem_comp s i hc⟩
  · exact ⟨_, execItem_mpi s i hm⟩

theorem execItem_execed (s : QState) (i : Item) (s' : QState)
    (h : execItem s i = .ok s') :
    execedItems s'.trace = execedItems s.trace ++ [i] := by
  rcases execItem_ok_cases s i s' h with ⟨_, rfl⟩ | ⟨_, rfl⟩ <;>
    simp [execedItems_append, execedItems]

theorem atSeq_comp (s : QState) (i : Item) (hi : i.kind = K4Kind.compute) :
    atSequencePoint s i = ismpikernel s.last := by
  simp [atSequencePoint, iscomputekernel, ismpikernel, hi]

theorem atSeq_mpi (s : QState) (i : Item) (hi : i.kind = K4Kind.mpi) :
    atSequencePoint s i = iscomputekernel s.last := by
  have h1 : iscomputekernel (some i) = false := by
    simp [iscomputekernel, hi]
  have h2 : ismpikernel (some i) = true := by simp [ismpikernel, hi]
  unfold atSequencePoint
  rw [h1, h2]
  simp

theorem execItem_noseq_inv (s : QState) (i : Item) (s' : QState)
    (hseq : atSequencePoint s i = false) (h : execItem s i = .ok s')
    (hinv : InvMpi s) : InvMpi s' := by
  rcases execItem_ok_cases s i s' h with ⟨hk, rfl⟩ | ⟨hk, rfl⟩
  · -- compute: no requests may be outstanding here
    have hlm : ismpikernel s.last = false := by
      rw [atSeq_comp s i hk] at hseq
      exact hseq
    have hreq : s.mpireqs = [] := by
      by_cases hr : s.mpireqs = []
      · exact hr
      · rw [hinv hr] at hlm
        exact Bool.noConfusion hlm
    intro hne
    exact absurd hreq hne
  · intro _
    simp [ismpikernel, hk]

theorem execNext1_inv (s : QState) (i : Item) (s' : QState)
    (h : execNext1 s i = .ok s') (hinv : InvMpi s) : InvMpi s' := by
  unfold execNext1 at h
  by_cases hseq : atSequencePoint s i = true
  · rw [if_pos hseq] at h
    rcases execItem_ok_cases _ i s' h with ⟨hk, rfl⟩ | ⟨hk, rfl⟩
    · intro hne
      exact absurd (wait_reqs_of_inv s hinv) hne
    · intro _
      simp [ismpikernel, hk]
  · rw [if_neg hseq] at h
    exact execItem_noseq_inv s i s' (Bool.not_eq_true _ ▸ hseq) h hinv

theorem execNext1_ok_of_valid (s : QState) (i : Item) (hv : validItem i) :
    ∃ s', execNext1 s i = .ok s' := by
  unfold execNext1
  exact execItem_ok_of_valid _ i hv

theorem execNext1_execed (s : QState) (i : Item) (s' : QState)
    (h : execNext1 s i = .ok s') :
    execedItems s'.trace = execedItems s.trace ++ [i] := by
  unfold execNext1 at h
  by_cases hseq : atSequencePoint s i = true
  · rw [if_pos hseq] at h
    rw [execItem_execed _ i s' h, wait_execed]
  · rw [if_neg hseq] at h
    exact execItem_execed s i s' h

theorem runL_cons (s : QState) (i : Item) (rest : List Item) :
    runL s (i :: rest) =
      match execNext1 s i with
      | .error e => .error e
      | .ok s' => runL s' rest := rfl

theorem execNowaitL_spec (l : List Item) (s : QState) (q' : Queue)
    (h : execNowaitL s l = .ok q') :
    (∃ pre, l = pre ++ q'.items ∧
      q'.st.trace = s.trace ++ pre.map Event.run) ∧
    (∀ i' rest', q'.items = i' :: rest' →
      atSequencePoint q'.st i' = true) ∧
    (InvMpi s → InvMpi q'.st) ∧
    runL s l = runL q'.st q'.items := by
  induction l generalizing s with
  | nil =>
    unfold execNowaitL at h
    obtain rfl : Queue.mk s [] = q' := by
      exact (Except.ok.injEq _ _).mp h
    exact ⟨⟨[], by simp⟩, by intro i' rest' hc; exact List.noConfusion hc,
      fun hi => hi, rfl⟩
  | cons i rest ih =>
    unfold execNowaitL at h
    by_cases hseq : atSequencePoint s i = true
    · rw [if_pos hseq] at h
      obtain rfl : Queue.mk s (i :: rest) = q' := by
        exact (Except.ok.injEq _ _).mp h
      refine ⟨⟨[], by simp⟩, ?_, fun hi => hi, rfl⟩
      intro i' rest' hc
      obtain ⟨rfl, rfl⟩ : i = i' ∧ rest = rest' := by
        exact ⟨(List.cons.injEq _ _ _ _).mp hc |>.1,
               (List.cons.injEq _ _ _ _).mp hc |>.2⟩
      exact hseq
    · rw [if_neg hseq] at h
      cases hexec : execItem s i with
      | error e => rw [hexec] at h; exact Except.noConfusion h
      | ok s1 =>
        rw [hexec] at h
        obtain ⟨⟨pre, hpre, htr⟩, hmax, hinv, hrun⟩ := ih s1 h
        have htr1 : s1.trace = s.trace ++ [Event.run i] := by
          rcases execItem_ok_cases s i s1 hexec with ⟨_, rfl⟩ | ⟨_, rfl⟩ <;>
            rfl
        refine ⟨⟨i :: pre, by simp [hpre], by
          rw [htr, htr1]; simp⟩, hmax, ?_, ?_⟩
        · intro hi
          exact hinv (execItem_noseq_inv s i s1
            (Bool.not_eq_true _ ▸ hseq) hexec hi)
        · have hn1 : execNext1 s i = .ok s1 := by
            unfold execNext1
            rw [if_neg hseq]
            exact hexec
          show runL s (i :: rest) = _
          rw [runL_cons s i rest, hn1]
          exact hrun

theorem execNowaitL_ok_of_valid (l : List Item) (s : QState)
    (hv : ValidItems l) : ∃ q', execNowaitL s l = .ok q' := by
  induction l generalizing s with
  | nil => exact ⟨⟨s, []⟩, rfl⟩
  | cons i rest ih =>
    unfold execNowaitL
    by_cases hseq : atSequencePoint s i = true
    · rw [if_pos hseq]
      exact ⟨⟨s, i :: rest⟩, rfl⟩
    · rw [if_neg hseq]
      obtain ⟨s1, hs1⟩ := execItem_ok_of_valid s i
        (hv i (List.mem_cons_self i rest))
      rw [hs1]
      exact ih s1 (fun x hx => hv x (List.mem_cons_of_mem i hx))

theorem runL_inv (l : List Item) (s s' : QState) (h : runL s l = .ok s')
    (hinv : InvMpi s) : InvMpi s' := by
  induction l generalizing s with
  | nil =>
    obtain rfl : s = s' := by
      unfold runL at h
      exact (Except.ok.injEq _ _).mp h
    exact hinv
  | cons i rest ih =>
    unfold runL at h
    cases hn : execNext1 s i with
    | error e => rw [hn] at h; exact Except.noConfusion h
    | ok s1 =>
      rw [hn] at h
      exact ih s1 h (execNext1_inv s i s1 hn hinv)

theorem runL_execed (l : List Item) (s s' : QState)
    (h : runL s l = .ok s') :
    execedItems s'.trace = execedItems s.trace ++ l := by
  induction l generalizing s with
  | nil =>
    obtain rfl : s = s' := by
      unfold runL at h
      exact (Except.ok.injEq _ _).mp h
    simp
  | cons i rest ih =>
    unfold runL at h
    cases hn : execNext1 s i with
    | error e => rw [hn] at h; exact Except.noConfusion h
    | ok s1 =>
      rw [hn] at h
      rw [ih s1 h, execNext1_execed s i s1 hn]
      simp

theorem runL_ok_of_valid (l : List Item) (s : QState) (hv : ValidItems l) :
    ∃ s', runL s l = .ok s' := by
  induction l generalizing s with
  | nil => exact ⟨s, rfl⟩
  | cons i rest ih =>
    obtain ⟨s1, hs1⟩ := execNext1_ok_of_valid s i
      (hv i (List.mem_cons_self i rest))
    unfold runL
    rw [hs1]
    exact ih s1 (fun x hx => hv x (List.mem_cons_of_mem i hx))

theorem run_spec (q : Queue) (q' : Queue) (h : run q = .ok q')
    (hinv : InvMpi q.st) :
    q'.items = [] ∧ q'.st.last = none ∧ q'.st.mpireqs = [] ∧
      execedItems q'.st.trace = execedItems q.st.trace ++ q.items := by
  unfold run at h
  cases hr : runL q.st q.items with
  | error e => rw [hr] at h; exact Except.noConfusion h
  | ok s =>
    rw [hr] at h
    obtain rfl : Queue.mk (wait s) [] = q' := by
      exact (Except.ok.injEq _ _).mp h
    refine ⟨rfl, wait_last s, wait_reqs_of_inv s (runL_inv _ _ _ hr hinv),
      ?_⟩
    show execedItems (wait s).trace = _
    rw [wait_execed, runL_execed _ _ _ hr]

theorem run_ok_of_valid (q : Queue) (hv : ValidItems q.items) :
    ∃ q', run q = .ok q' := by
  obtain ⟨s', hs'⟩ := runL_ok_of_valid q.items q.st hv
  exact ⟨⟨wait s', []⟩, by unfold run; rw [hs']⟩

theorem RunEqInv_refl (q : Queue) : RunEqInv q q :=
  ⟨rfl, fun h => h, [], by simp⟩

theorem RunEqInv_trans (a b c : Queue) (h1 : RunEqInv a b)
    (h2 : RunEqInv b c) : RunEqInv a c := by
  obtain ⟨e1, i1, p1, hp1⟩ := h1
  obtain ⟨e2, i2, p2, hp2⟩ := h2
  exact ⟨e1.trans e2, fun h => i2 (i1 h), p1 ++ p2, by
    rw [hp1, hp2, List.append_assoc]⟩

theorem ValidItems_suffix (pre l : List Item)
    (hv : ValidItems (pre ++ l)) : ValidItems l :=
  fun x hx => hv x (List.mem_append.mpr (Or.inr hx))

theorem runallPassQ_cons (st : QState) (i : Item) (rest : List Item) :
    runallPassQ ⟨st, i :: rest⟩ =
      match execNext1 st i with
      | .error e => .error e
      | .ok s => execNowaitL s rest := rfl

theorem runallPassQ_spec (q q' : Queue) (h : runallPassQ q = .ok q') :
    RunEqInv q q' ∧ (q.items ≠ [] → q'.items.length < q.items.length) ∧
      q'.items.length ≤ q.items.length := by
  obtain ⟨st, items⟩ := q
  cases items with
  | nil =>
    obtain rfl : Queue.mk st [] = q' := by
      exact (Except.ok.injEq _ _).mp h
    exact ⟨RunEqInv_refl _, fun hc => absurd rfl hc, le_rfl⟩
  | cons i rest =>
    rw [runallPassQ_cons st i rest] at h
    cases hn : execNext1 st i with
    | error e => rw [hn] at h; exact Except.noConfusion h
    | ok s1 =>
      rw [hn] at h
      obtain ⟨⟨pre, hpre, -⟩, -, hinv1, hrun1⟩ :=
        execNowaitL_spec rest s1 q' h
      have hlen : q'.items.length ≤ rest.length := by
        rw [hpre]; simp
      refine ⟨⟨?_, ?_, ?_⟩, ?_, ?_⟩
      · show runL st (i :: rest) = _
        rw [runL_cons, hn]
        exact hrun1
      · intro hi
        exact hinv1 (execNext1_inv st i s1 hn hi)
      · exact ⟨i :: pre, by rw [hpre]; simp⟩
      · intro _
        simp only [List.length_cons]
        omega
      · simp only [List.length_cons]
        omega

theorem runallPassQ_ok_of_valid (q : Queue) (hv : ValidItems q.items) :
    ∃ q', runallPassQ q = .ok q' := by
  obtain ⟨st, items⟩ := q
  cases items with
  | nil => exact ⟨⟨st, []⟩, rfl⟩
  | cons i rest =>
    rw [runallPassQ_cons st i rest]
    obtain ⟨s1, hs1⟩ := execNext1_ok_of_valid st i
      (hv i (List.mem_cons_self i rest))
    rw [hs1]
    exact execNowaitL_ok_of_valid rest s1
      (fun x hx => hv x (List.mem_cons_of_mem i hx))

theorem runallPass_spec (qs qs' : List Queue)
    (h : runallPass qs = .ok qs') :
    List.Forall₂ (fun q q' => RunEqInv q q' ∧
      (q.items ≠ [] → q'.items.length < q.items.length) ∧
      q'.items.length ≤ q.items.length) qs qs' := by
  induction qs generalizing qs' with
  | nil =>
    obtain rfl : ([] : List Queue) = qs' := by
      unfold runallPass at h
      exact (Except.ok.injEq _ _).mp h
    exact List.Forall₂.nil
  | cons q rest ih =>
    unfold runallPass at h
    cases hq : runallPassQ q with
    | error e => rw [hq] at h; exact Except.noConfusion h
    | ok q1 =>
      rw [hq] at h
      cases hr : runallPass rest with
      | error e => rw [hr] at h; exact Except.noConfusion h
      | ok rest1 =>
        rw [hr] at h
        obtain rfl : (q1 :: rest1) = qs' := by
          exact (Except.ok.injEq _ _).mp h
        exact List.Forall₂.cons (runallPassQ_spec q q1 hq) (ih rest1 hr)

theorem runallPass_ok_of_valid (qs : List Queue)
    (hv : ∀ q ∈ qs, ValidItems q.items) :
    ∃ qs', runallPass qs = .ok qs' := by
  induction qs with
  | nil => exact ⟨[], rfl⟩
  | cons q rest ih =>
    obtain ⟨q1, hq1⟩ := runallPassQ_ok_of_valid q
      (hv q (List.mem_cons_self q rest))
    obtain ⟨rest1, hrest1⟩ := ih (fun x hx =>
      hv x (List.mem_cons_of_mem q hx))
    exact ⟨q1 :: rest1, by unfold runallPass; rw [hq1, hrest1]⟩

theorem totalItems_lt_of_pass (qs qs' : List Queue)
    (h : runallPass qs = .ok qs')
    (hne : ¬ (qs.all fun q => q.items.isEmpty) = true) :
    totalItems qs' < totalItems qs := by
  have hf := runallPass_spec qs qs' h
  clear h
  induction hf with
  | nil => exact absurd rfl hne
  | @cons q q' rest rest' hqq hrest ih =>
    rw [List.all_cons] at hne
    have hle : totalItems rest' ≤ totalItems rest := by
      clear ih hne
      induction hrest with
      | nil => exact le_rfl
      | @cons a b as bs hab hasbs ih2 =>
        show b.items.length + totalItems bs ≤
          a.items.length + totalItems as
        have := hab.2.2
        omega
    by_cases hempty : q.items.isEmpty = true
    · have hne' : ¬ (rest.all fun q => q.items.isEmpty) = true := by
        intro hc
        rw [hempty, hc] at hne
        exact hne rfl
      have hrec := ih hne'
      show q'.items.length + totalItems rest' <
        q.items.length + totalItems rest
      omega
    · have hqne : q.items ≠ [] := by
        intro hc
        rw [hc] at hempty
        exact hempty rfl
      have hlt := hqq.2.1 hqne
      show q'.items.length + totalItems rest' <
        q.items.length + totalItems rest
      omega

theorem forall2_trans {α : Type} {R : α → α → Prop}
    (ht : ∀ a b c, R a b → R b c → R a c) :
    ∀ {l1 l2 l3 : List α}, List.Forall₂ R l1 l2 → List.Forall₂ R l2 l3 →
      List.Forall₂ R l1 l3 := by
  intro l1 l2 l3 h12
  induction h12 generalizing l3 with
  | nil =>
    intro h23
    cases h23
    exact List.Forall₂.nil
  | @cons a b as bs hab h12' ih =>
    intro h23
    cases h23 with
    | cons hbc h23' => exact List.Forall₂.cons (ht _ _ _ hab hbc) (ih h23')

theorem forall2_mem_right {α β : Type} {R : α → β → Prop}
    {l1 : List α} {l2 : List β} (h : List.Forall₂ R l1 l2) (b : β)
    (hb : b ∈ l2) : ∃ a ∈ l1, R a b := by
  induction h with
  | nil => exact absurd hb (List.not_mem_nil b)
  | @cons x y xs ys hxy hxs ih =>
    rcases List.mem_cons.mp hb with rfl | hb'
    · exact ⟨x, List.mem_cons_self x xs, hxy⟩
    · obtain ⟨a, ha, har⟩ := ih hb'
      exact ⟨a, List.mem_cons_of_mem x ha, har⟩

theorem totalItems_zero_all_nil (qs : List Queue)
    (h : totalItems qs = 0) : ∀ q ∈ qs, q.items = [] := by
  induction qs with
  | nil => intro q hq; exact absurd hq (List.not_mem_nil q)
  | cons q rest ih =>
    intro x hx
    have hlen : q.items.length + totalItems rest = 0 := h
    rcases List.mem_cons.mp hx with rfl | hx'
    · exact List.length_eq_zero.mp (by omega)
    · exact ih (by omega) x hx'

theorem runallFuel_spec (n : Nat) (qs qs' : List Queue)
    (hn : totalItems qs ≤ n) (h : runallFuel n qs = .ok qs') :
    List.Forall₂ RunEqInv qs qs' ∧ ∀ q' ∈ qs', q'.items = [] := by
  induction n generalizing qs with
  | zero =>
    obtain rfl : qs = qs' := by exact (Except.ok.injEq _ _).mp h
    refine ⟨List.forall₂_same.mpr (fun q _ => RunEqInv_refl q), ?_⟩
    exact totalItems_zero_all_nil qs (by omega)
  | succ m ih =>
    unfold runallFuel at h
    by_cases hall : (qs.all fun q => q.items.isEmpty) = true
    · rw [if_pos hall] at h
      obtain rfl : qs = qs' := by exact (Except.ok.injEq _ _).mp h
      refine ⟨List.forall₂_same.mpr (fun q _ => RunEqInv_refl q), ?_⟩
      intro q' hq'
      have := List.all_eq_true.mp hall q' hq'
      exact List.isEmpty_iff.mp this
    · rw [if_neg hall] at h
      cases hp : runallPass qs with
      | error e => rw [hp] at h; exact Except.noConfusion h
      | ok qsM =>
        rw [hp] at h
        have hlt := totalItems_lt_of_pass qs qsM hp hall
        obtain ⟨hf2, hempty⟩ := ih qsM (by omega) h
        have hf1 : List.Forall₂ RunEqInv qs qsM :=
          (runallPass_spec qs qsM hp).imp (fun a b hab => hab.1)
        exact ⟨forall2_trans RunEqInv_trans hf1 hf2, hempty⟩

theorem forall2_valid_of_runEqInv (qs qs' : List Queue)
    (hf : List.Forall₂ RunEqInv qs qs')
    (hv : ∀ q ∈ qs, ValidItems q.items) :
    ∀ q' ∈ qs', ValidItems q'.items := by
  intro q' hq'
  obtain ⟨q, hqmem, hr⟩ := forall2_mem_right hf q' hq'
  obtain ⟨-, -, pre, hpre⟩ := hr
  exact ValidItems_suffix pre q'.items (hpre ▸ hv q hqmem)

theorem runallFuel_ok_of_valid (n : Nat) (qs : List Queue)
    (hv : ∀ q ∈ qs, ValidItems q.items) :
    ∃ qs', runallFuel n qs = .ok qs' := by
  induction n generalizing qs with
  | zero => exact ⟨qs, rfl⟩
  | succ m ih =>
    unfold runallFuel
    by_cases hall : (qs.all fun q => q.items.isEmpty) = true
    · rw [if_pos hall]
      exact ⟨qs, rfl⟩
    · rw [if_neg hall]
      obtain ⟨qsM, hp⟩ := runallPass_ok_of_valid qs hv
      rw [hp]
      exact ih qsM (forall2_valid_of_runEqInv qs qsM
        ((runallPass_spec qs qsM hp).imp (fun a b hab => hab.1)) hv)

theorem execNowaitAll_spec (qs qs1 : List Queue)
    (h : execNowaitAll qs = .ok qs1) :
    List.Forall₂ (fun q q1 => RunEqInv q q1 ∧
      (∃ pre, q.items = pre ++ q1.items ∧
        q1.st.trace = q.st.trace ++ pre.map Event.run) ∧
      (∀ i' rest', q1.items = i' :: rest' →
        atSequencePoint q1.st i' = true)) qs qs1 := by
  induction qs generalizing qs1 with
  | nil =>
    obtain rfl : ([] : List Queue) = qs1 := by
      unfold execNowaitAll at h
      exact (Except.ok.injEq _ _).mp h
    exact List.Forall₂.nil
  | cons q rest ih =>
    unfold execNowaitAll at h
    cases hq : execNowait q with
    | error e => rw [hq] at h; exact Except.noConfusion h
    | ok q1 =>
      rw [hq] at h
      cases hr : execNowaitAll rest with
      | error e => rw [hr] at h; exact Except.noConfusion h
      | ok rest1 =>
        rw [hr] at h
        obtain rfl : (q1 :: rest1) = qs1 := by
          exact (Except.ok.injEq _ _).mp h
        obtain ⟨⟨pre, hpre, htr⟩, hmax, hinv, hrun⟩ :=
          execNowaitL_spec q.items q.st q1 hq
        exact List.Forall₂.cons
          ⟨⟨hrun, hinv, pre, hpre⟩, ⟨pre, hpre, htr⟩, hmax⟩ (ih rest1 hr)

theorem execNowaitAll_ok_of_valid (qs : List Queue)
    (hv : ∀ q ∈ qs, ValidItems q.items) :
    ∃ qs1, execNowaitAll qs = .ok qs1 := by
  induction qs with
  | nil => exact ⟨[], rfl⟩
  | cons q rest ih =>
    obtain ⟨q1, hq1⟩ := execNowaitL_ok_of_valid q.items q.st
      (hv q (List.mem_cons_self q rest))
    obtain ⟨rest1, hrest1⟩ := ih (fun x hx =>
      hv x (List.mem_cons_of_mem q hx))
    refine ⟨q1 :: rest1, ?_⟩
    unfold execNowaitAll
    rw [show execNowait q = .ok q1 from hq1, hrest1]

theorem forall2_run_final (qs qs2 : List Queue)
    (hf : List.Forall₂ RunEqInv qs qs2)
    (hemp : ∀ q2 ∈ qs2, q2.items = []) :
    List.Forall₂ (fun q q' => run q = .ok q' ∧ q'.items = []) qs
      (qs2.map fun q => ⟨wait q.st, q.items⟩) := by
  induction hf with
  | nil => exact List.Forall₂.nil
  | @cons a b as bs hab htail ih =>
    have hb : b.items = [] := hemp b (List.mem_cons_self b bs)
    refine List.Forall₂.cons ⟨?_, ?_⟩
      (ih (fun x hx => hemp x (List.mem_cons_of_mem b hx)))
    · have h1 : runL a.st a.items = .ok b.st := by
        rw [hab.1, hb]
        rfl
      unfold run
      rw [h1]
      show Except.ok (Queue.mk (wait b.st) []) =
        Except.ok ⟨wait b.st, b.items⟩
      rw [hb]
    · show b.items = []
      exact hb

theorem runall_run (qs qs' : List Queue) (h : runall qs = .ok qs') :
    List.Forall₂ (fun q q' => run q = .ok q' ∧ q'.items = []) qs qs' := by
  unfold runall at h
  cases hna : execNowaitAll qs with
  | error e => rw [hna] at h; exact Except.noConfusion h
  | ok qs1 =>
    rw [hna] at h
    have h2 : (match runallFuel (totalItems qs1) qs1 with
        | .error e => (.error e : Except String (List Queue))
        | .ok qs2 =>
          .ok (qs2.map fun (q : Queue) => Queue.mk (wait q.st) q.items)) =
        .ok qs' := h
    cases hf : runallFuel (totalItems qs1) qs1 with
    | error e => rw [hf] at h2; exact Except.noConfusion h2
    | ok qs2 =>
      rw [hf] at h2
      obtain rfl : (qs2.map fun (q : Queue) =>
          Queue.mk (wait q.st) q.items) = qs' := by
        exact (Except.ok.injEq _ _).mp h2
      obtain ⟨hf2, hemp⟩ := runallFuel_spec _ qs1 qs2 le_rfl hf
      have hf1 : List.Forall₂ RunEqInv qs qs1 :=
        (execNowaitAll_spec qs qs1 hna).imp fun a b hab => hab.1
      exact forall2_run_final qs qs2
        (forall2_trans RunEqInv_trans hf1 hf2) hemp

theorem execedItems_map_run (l : List Item) :
    execedItems (l.map Event.run) = l := by
  induction l with
  | nil => rfl
  | cons i t ih =>
    show execedItems (Event.run i :: t.map Event.run) = i :: t
    unfold execedItems at ih ⊢
    rw [List.filterMap_cons]
    simpa using ih

/-- Claim C5: running a set of queues of valid compute/MPI kernels
through the static `runall` driver succeeds and leaves every queue in
exactly the state an independent `run()` would: same `run q = ok q'`
result per queue, each queue quiescent (no pending items, no `last`, no
outstanding requests) with its items executed in enqueue order; moreover
`runall` first issues, for every queue, the maximal no-wait front of its
pending items (only kernel `run` events, no wait, stopping only at a
sequence point) before any blocking pass begins. -/
theorem runall_refines_independent_runs (itemss : List (List Item))
    (hv : ∀ l ∈ itemss, ValidItems l) :
    ∃ qs', runall (itemss.map initQ) = .ok qs' ∧
      List.Forall₂ (fun q q' => run q = .ok q') (itemss.map initQ) qs' ∧
      List.Forall₂ (fun l q' => q'.items = [] ∧ q'.st.last = none ∧
        q'.st.mpireqs = [] ∧ execedItems q'.st.trace = l) itemss qs' ∧
      ∃ qs1, execNowaitAll (itemss.map initQ) = .ok qs1 ∧
        List.Forall₂ (fun l q1 =>
          (∀ e ∈ q1.st.trace, isRunEv e = true) ∧
          l = execedItems q1.st.trace ++ q1.items ∧
          (∀ i' rest', q1.items = i' :: rest' →
            atSequencePoint q1.st i' = true)) itemss qs1 := by
  have hvq : ∀ q ∈ itemss.map initQ, ValidItems q.items := by
    intro q hq
    obtain ⟨l, hl, rfl⟩ := List.mem_map.mp hq
    exact hv l hl
  obtain ⟨qs1, hna⟩ := execNowaitAll_ok_of_valid _ hvq
  have hspec1 := execNowaitAll_spec _ qs1 hna
  have hv1 : ∀ q ∈ qs1, ValidItems q.items :=
    forall2_valid_of_runEqInv _ qs1
      (hspec1.imp fun a b hab => hab.1) hvq
  obtain ⟨qs2, hf⟩ := runallFuel_ok_of_valid (totalItems qs1) qs1 hv1
  have hrunall : runall (itemss.map initQ) =
      .ok (qs2.map fun q => ⟨wait q.st, q.items⟩) := by
    unfold runall
    rw [hna]
    exact (show (match runallFuel (totalItems qs1) qs1 with
      | .error e => (.error e : Except String (List Queue))
      | .ok qs2 =>
        .ok (qs2.map fun (q : Queue) => Queue.mk (wait q.st) q.items)) =
        .ok (qs2.map fun (q : Queue) => Queue.mk (wait q.st) q.items)
        by rw [hf])
  have hforall := runall_run _ _ hrunall
  refine ⟨_, hrunall, hforall.imp (fun a b hab => hab.1), ?_, qs1, hna,
    ?_⟩
  · have hmapped := List.forall₂_map_left_iff.mp hforall
    refine hmapped.imp (fun l q' hab => ?_)
    obtain ⟨hrun, -⟩ := hab
    have hinv0 : InvMpi (initQ l).st := fun hne => absurd rfl hne
    obtain ⟨hi, hl, hr, he⟩ := run_spec (initQ l) q' hrun hinv0
    refine ⟨hi, hl, hr, ?_⟩
    rw [he]
    show execedItems [] ++ l = l
    simp [execedItems]
  · have hmapped := List.forall₂_map_left_iff.mp hspec1
    refine hmapped.imp (fun l q1 hab => ?_)
    obtain ⟨-, ⟨pre, hpre, htr⟩, hmax⟩ := hab
    have htr' : q1.st.trace = pre.map Event.run := by
      rw [htr]
      show (initQ l).st.trace ++ pre.map Event.run = _
      simp [initQ]
    refine ⟨?_, ?_, hmax⟩
    · intro e he
      rw [htr'] at he
      obtain ⟨x, -, rfl⟩ := List.mem_map.mp he
      rfl
    · rw [htr', execedItems_map_run]
      exact hpre

/-- Witness for C5: one all-compute queue next to one all-MPI queue. -/
theorem runall_refines_independent_runs_witness :
    ∃ qs', runall ([[⟨0, K4Kind.compute, []⟩],
      [⟨1, K4Kind.mpi, [7]⟩]].map initQ) = .ok qs' := by
  obtain ⟨qs', h1, -, -, -⟩ := runall_refines_independent_runs
    [[⟨0, K4Kind.compute, []⟩], [⟨1, K4Kind.mpi, [7]⟩]] (by decide)
  exact ⟨qs', h1⟩

theorem reach_valid_inv (q : Queue) (hq : Reach q) :
    ValidItems q.items ∧ InvMpi q.st := by
  induction hq with
  | fresh =>
    exact ⟨fun i hi => absurd hi (List.not_mem_nil i),
      fun hne => absurd rfl hne⟩
  | enq q l hql hlv ih =>
    refine ⟨?_, ih.2⟩
    intro x hx
    rcases List.mem_append.mp hx with h1 | h2
    · exact ih.1 x h1
    · exact hlv x h2
  | next q q' hql h ih =>
    obtain ⟨st, items⟩ := q
    cases items with
    | nil => exact absurd h (by unfold execNext; simp)
    | cons i rest =>
      have hred : execNext ⟨st, i :: rest⟩ =
          match execNext1 st i with
          | .error e => .error e
          | .ok s => .ok ⟨s, rest⟩ := rfl
      rw [hred] at h
      cases hn : execNext1 st i with
      | error e => rw [hn] at h; exact Except.noConfusion h
      | ok s =>
        rw [hn] at h
        obtain rfl : Queue.mk s rest = q' := by
          exact (Except.ok.injEq _ _).mp h
        exact ⟨fun x hx => ih.1 x (List.mem_cons_of_mem i hx),
          execNext1_inv st i s hn ih.2⟩
  | nowait q q' hql h ih =>
    obtain ⟨⟨pre, hpre, -⟩, -, hinv, -⟩ :=
      execNowaitL_spec q.items q.st q' h
    exact ⟨ValidItems_suffix pre q'.items (hpre ▸ ih.1), hinv ih.2⟩
  | runStep q q' hql h ih =>
    obtain ⟨hi, -, hr, -⟩ := run_spec q q' h ih.2
    refine ⟨?_, fun hne => absurd hr hne⟩
    rw [hi]
    exact fun i hmem => absurd hmem (List.not_mem_nil i)
  | runallStep qs qs' q' hqs h hmem ih =>
    have hfor := runall_run qs qs' h
    obtain ⟨q0, hq0, hr0, -⟩ := forall2_mem_right hfor q' hmem
    obtain ⟨hi', -, hr', -⟩ := run_spec q0 q' hr0 (ih q0 hq0).2
    refine ⟨?_, fun hne => absurd hr' hne⟩
    rw [hi']
    exact fun i hmem' => absurd hmem' (List.not_mem_nil i)

/-- Claim C10: in every queue state reachable by enqueueing valid
compute/MPI kernels and driving the queue through single steps,
no-wait drains, full runs, or `runall`, outstanding MPI requests exist
only while the last executed kernel is an MPI kernel; consequently when
`_wait` takes its compute branch (which leaves `self._mpireqs` untouched)
the request list is already empty, so no pending request is abandoned. -/
theorem mpireqs_only_under_mpi_last (q : Queue) (hq : Reach q) :
    (q.st.mpireqs ≠ [] → ismpikernel q.st.last = true) ∧
    (iscomputekernel q.st.last = true → q.st.mpireqs = [] ∧
      (wait q.st).mpireqs = q.st.mpireqs) := by
  have hinv := (reach_valid_inv q hq).2
  refine ⟨hinv, ?_⟩
  intro hc
  have hreq : q.st.mpireqs = [] := by
    by_cases hr : q.st.mpireqs = []
    · exact hr
    · exact absurd ⟨hc, hinv hr⟩ (not_comp_and_mpi q.st.last)
  refine ⟨hreq, ?_⟩
  unfold wait
  rw [if_pos hc]

/-- Witness for C10: the queue reached by enqueueing one MPI kernel into
a fresh queue and single-stepping it. -/
theorem mpireqs_only_under_mpi_last_witness :
    ((⟨⟨some ⟨0, K4Kind.mpi, [5]⟩, [5],
        [Event.run ⟨0, K4Kind.mpi, [5]⟩]⟩, []⟩ : Queue).st.mpireqs ≠ [] →
      ismpikernel (⟨⟨some ⟨0, K4Kind.mpi, [5]⟩, [5],
        [Event.run ⟨0, K4Kind.mpi, [5]⟩]⟩, []⟩ : Queue).st.last = true) ∧
    (iscomputekernel (⟨⟨some ⟨0, K4Kind.mpi, [5]⟩, [5],
        [Event.run ⟨0, K4Kind.mpi, [5]⟩]⟩, []⟩ : Queue).st.last = true →
      (⟨⟨some ⟨0, K4Kind.mpi, [5]⟩, [5],
        [Event.run ⟨0, K4Kind.mpi, [5]⟩]⟩, []⟩ : Queue).st.mpireqs = [] ∧
      (wait (⟨⟨some ⟨0, K4Kind.mpi, [5]⟩, [5],
        [Event.run ⟨0, K4Kind.mpi, [5]⟩]⟩, []⟩ : Queue).st).mpireqs =
        (⟨⟨some ⟨0, K4Kind.mpi, [5]⟩, [5],
          [Event.run ⟨0, K4Kind.mpi, [5]⟩]⟩, []⟩ : Queue).st.mpireqs) :=
  mpireqs_only_under_mpi_last _
    (Reach.next _ _
      (Reach.enq (initQ []) [⟨0, K4Kind.mpi, [5]⟩] Reach.fresh
        (by decide))
      rfl)

end PyFRCuda
